import Mathlib

/-!
# BridgeWise graph-processor verification

Shallow embedding of the BridgeWise graph-processor core
(`similarity_builder.py`, `precompute_graph.py`, `rank_my_connections.py`,
`app.py`) and proofs of the specified properties.

Numbers that the Python code handles as floats are modelled as exact
rationals (`ℚ`); Neo4j result rows are modelled as explicit lists computed
from a finite graph value.
-/

namespace BridgeWise

/-! ## Python string primitives

Lean's built-in `String` searching and case functions operate through byte
positions and do not reduce in the kernel; the Python string operations the
code uses are therefore modelled directly on the character list. -/

/-- Python `str.lower()` (the graph holds ASCII names, skills and titles). -/
def pyLower (s : String) : String := String.mk (s.data.map Char.toLower)

/-- Python `str.strip()`. -/
def pyStrip (s : String) : String :=
  String.mk (((s.data.dropWhile Char.isWhitespace).reverse.dropWhile
    Char.isWhitespace).reverse)

/-- Python `s.startswith(pre)`. -/
def pyStartsWith (s pre : String) : Bool := pre.data.isPrefixOf s.data

/-- Python `s.endswith(suf)`. -/
def pyEndsWith (s suf : String) : Bool := suf.data.isSuffixOf s.data

/-- Python `s[:-1]`. -/
def pyDropLast (s : String) : String := String.mk s.data.dropLast

/-- Python `a < b` on strings: lexicographic comparison by code point. -/
def pyStrLtChars : List Char → List Char → Bool
  | [], [] => false
  | [], _ :: _ => true
  | _ :: _, [] => false
  | a :: as1, b :: bs1 =>
    if a < b then true else if b < a then false else pyStrLtChars as1 bs1

/-- Python `a < b` on strings. -/
def pyStrLt (a b : String) : Bool := pyStrLtChars a.data b.data

/-! ## Generic list min/max helpers (Python `min(...)` / `max(...)`) -/

/-- Minimum of a list with a seed, as `foldl min`. -/
def foldMin (a : ℚ) (l : List ℚ) : ℚ := l.foldl min a

/-- Maximum of a list with a seed, as `foldl max`. -/
def foldMax (a : ℚ) (l : List ℚ) : ℚ := l.foldl max a

/-- Python `min(sub)` on a non-empty list `v :: vs`. -/
def listMin (v : ℚ) (vs : List ℚ) : ℚ := foldMin v vs

/-- Python `max(sub)` on a non-empty list `v :: vs`. -/
def listMax (v : ℚ) (vs : List ℚ) : ℚ := foldMax v vs

/-! ## `_minmax_on_subset` (rank_my_connections.py, lines 485-492)

The Python function receives a dict `values` (read with `.get(k, 0.0)`) and a
subset of keys; it returns a dict over the subset.  We model the dict as a
total function with default `0`, and the returned dict likewise (keys off the
subset read as `0`, matching every consumer's `.get(pid, 0.0)`). -/

/-- Python `_minmax_on_subset(values, subset)`. -/
def _minmax_on_subset (values : String → ℚ) (subset : List String) : String → ℚ :=
  match subset.map values with
  | [] => fun _ => 0
  | v :: vs =>
    let mn := listMin v vs
    let mx := listMax v vs
    if mx ≤ mn then fun _ => 0
    else fun k => if k ∈ subset then (values k - mn) / (mx - mn) else 0

/-! ## Similarity-layer graph model

A similarity layer (`:SIMILAR` or `:SIMILAR_JOB` over `Person` nodes) is a
finite undirected graph: a vertex list and an edge list.  The Cypher pattern
`(p)-[:REL]-(n)` matches in both directions, and `collect(DISTINCT n)`
deduplicates. -/

structure SimGraph where
  verts : List String
  edges : List (String × String)

/-- Whether one relationship of the layer links `a` and `b` (either
orientation, as the undirected Cypher pattern matches). -/
def adjacent (g : SimGraph) (a b : String) : Bool :=
  g.edges.any (fun e => (e.1 == a && e.2 == b) || (e.1 == b && e.2 == a))

/-- `collect(DISTINCT n)` for `(v)-[:REL]-(n)`: the distinct neighbours of `v`. -/
def neighborsOf (g : SimGraph) (v : String) : List String :=
  (g.verts.filter (fun n => adjacent g v n)).dedup

/-- `size([x IN neigh WHERE x IS NOT NULL])`: the degree of `v` in the layer. -/
def degreeOf (g : SimGraph) (v : String) : ℕ :=
  (neighborsOf g v).length

/-- `collect(ndegr)`: for each neighbour, `count(DISTINCT m)` over
`(neighbor)-[:REL]-(m)`, i.e. that neighbour's own degree. -/
def neighbourDegrees (g : SimGraph) (v : String) : List ℕ :=
  (neighborsOf g v).map (degreeOf g)

/-! ## Bridging coefficient (precompute_graph.py, run_metrics_generic lines 215-226)

Python:
```
if deg > 0 and neigh:
    inv_sum = sum(1.0 / d for d in neigh if d)
    coeff = (1.0 / deg) * (1.0 / inv_sum) if inv_sum > 0 else 0.0
else:
    coeff = 0.0
```
-/

/-- The per-row bridging coefficient computed by `run_metrics_generic`. -/
def bridgeCoeffOf (deg : ℕ) (neighDegs : List ℕ) : ℚ :=
  if 0 < deg ∧ neighDegs ≠ [] then
    let invSum : ℚ := ((neighDegs.filter (fun d => d ≠ 0)).map (fun d => (1 : ℚ) / d)).sum
    if 0 < invSum then (1 / (deg : ℚ)) * (1 / invSum) else 0
  else 0

/-- The bridging coefficient `run_metrics_generic` stores for vertex `v` of
layer `g` (only vertices with at least one neighbour survive the `UNWIND` and
get written; the value for the others is irrelevant here). -/
def storedBridgeCoeff (g : SimGraph) (v : String) : ℚ :=
  bridgeCoeffOf (degreeOf g v) (neighbourDegrees g v)

/-! ## `run_metrics_generic` write pipeline (precompute_graph.py, lines 160-239)

The GDS projection excludes `exclude_ids`; `gds.louvain.write` and
`gds.betweenness.write` therefore write `community{L}` / `betweenness{L}` only
for projected persons.  Louvain and betweenness themselves are external GDS
library calls: their numeric outputs on the projected subgraph are abstract
parameters here.  The bridging pass that follows runs a plain
`MATCH (p:Person)` over the *whole* graph — with no exclusion — and its
`UNWIND neigh` drops persons without neighbours, so exactly the persons with
at least one layer neighbour get `bridgeCoeff`, `bridgePotential` and
`degree` written. -/

structure MetricProps where
  community : Option ℤ
  betweenness : Option ℚ
  similarDegree : Option ℚ
  bridgeCoeff : Option ℚ
  bridgePotential : Option ℚ
deriving DecidableEq

/-- One layer run of `run_metrics_generic`: final person properties as a
function of the layer graph, the exclusion list, the abstract GDS outputs and
the initial property state. -/
def run_metrics_generic (g : SimGraph) (excludeIds : List String)
    (louvainRes : String → ℤ) (betweennessRes : String → ℚ)
    (init : String → MetricProps) : String → MetricProps :=
  let projected := g.verts.filter (fun p => ¬ excludeIds.contains p)
  let afterGds : String → MetricProps := fun p =>
    if p ∈ projected then
      { init p with community := some (louvainRes p), betweenness := some (betweennessRes p) }
    else init p
  fun p =>
    if p ∈ g.verts ∧ neighborsOf g p ≠ [] then
      let coeff := bridgeCoeffOf (degreeOf g p) (neighbourDegrees g p)
      { afterGds p with
        bridgeCoeff := some coeff
        bridgePotential := some (((afterGds p).betweenness.getD 0) * coeff)
        similarDegree := some ((degreeOf g p : ℚ)) }
    else afterGds p

/-! ## `build_similar_edges` (similarity_builder.py, lines 13-75)

The skills-layer attribute store: `HAS_SKILL`, `WORKED_AT`, `ATTENDED` edges.
`build_similar_edges` with `clear_existing=True` first deletes every
`SIMILAR` edge, so the resulting edge set is a pure function of this store. -/

structure PeopleDB where
  persons : List String
  hasSkill : List (String × String)
  workedAt : List (String × String)
  attended : List (String × String)

/-- Distinct `Skill` nodes reachable from `p` via `HAS_SKILL`. -/
def skillNodesOf (db : PeopleDB) (p : String) : List String :=
  ((db.hasSkill.filter (fun e => e.1 == p)).map Prod.snd).dedup

/-- `count(s)` for `(p1)-[:HAS_SKILL]->(s)<-[:HAS_SKILL]-(p2)`. -/
def sharedSkillCount (db : PeopleDB) (a b : String) : ℕ :=
  ((skillNodesOf db a).filter (fun s => (skillNodesOf db b).contains s)).length

/-- Distinct `Company` nodes reachable from `p` via `WORKED_AT`. -/
def companyNodesOf (db : PeopleDB) (p : String) : List String :=
  ((db.workedAt.filter (fun e => e.1 == p)).map Prod.snd).dedup

/-- Number of rows of `(p1)-[:WORKED_AT]->(c)<-[:WORKED_AT]-(p2)`. -/
def sharedCompanyCount (db : PeopleDB) (a b : String) : ℕ :=
  ((companyNodesOf db a).filter (fun c => (companyNodesOf db b).contains c)).length

/-- Distinct `School` nodes reachable from `p` via `ATTENDED`. -/
def schoolNodesOf (db : PeopleDB) (p : String) : List String :=
  ((db.attended.filter (fun e => e.1 == p)).map Prod.snd).dedup

/-- Number of rows of `(p1)-[:ATTENDED]->(u)<-[:ATTENDED]-(p2)`. -/
def sharedSchoolCount (db : PeopleDB) (a b : String) : ℕ :=
  ((schoolNodesOf db a).filter (fun u => (schoolNodesOf db b).contains u)).length

inductive WeightMode where
  | count
  | jaccard
deriving DecidableEq

/-- `build_similar_edges(driver, min_shared_skills, weight_mode, boost_company,
boost_school, clear_existing=True)`: the weight of the `SIMILAR` edge stored
for the ordered pair `(a, b)` with `a.id < b.id`, or `none` when no edge is
created.  The base `MATCH` needs at least one shared skill to produce a row;
each boost query `MERGE`s the edge (creating it if absent) and adds its boost
once per shared company/school row. -/
def build_similar_edges (db : PeopleDB) (min_shared_skills : ℕ)
    (weight_mode : WeightMode) (boost_company boost_school : ℚ)
    (a b : String) : Option ℚ :=
  let shared := sharedSkillCount db a b
  let base : Option ℚ :=
    if 0 < shared ∧ min_shared_skills ≤ shared then
      match weight_mode with
      | .count => some (shared : ℚ)
      | .jaccard =>
        let unionSize :=
          (skillNodesOf db a).length + (skillNodesOf db b).length - sharedSkillCount db a b
        some (if unionSize = 0 then 0 else (shared : ℚ) / (unionSize : ℚ))
    else none
  let nc := sharedCompanyCount db a b
  let afterCompany : Option ℚ :=
    if 0 < boost_company ∧ 0 < nc then some (base.getD 0 + (nc : ℚ) * boost_company) else base
  let ns := sharedSchoolCount db a b
  if 0 < boost_school ∧ 0 < ns then some (afterCompany.getD 0 + (ns : ℚ) * boost_school)
  else afterCompany

/-! ## Python rounding and the rescale step (rank_my_connections.py, 197-202)

`round(x, 6)` in Python rounds half to even.  The scores the code rounds are
floats; in this exact-rational model we take round-half-even at six decimal
places on `ℚ`. -/

/-- Python `round(q)` to an integer: round half to even. -/
def pyRoundInt (q : ℚ) : ℤ :=
  let f := ⌊q⌋
  let r := q - (f : ℚ)
  if r < 1 / 2 then f
  else if 1 / 2 < r then f + 1
  else if f % 2 = 0 then f else f + 1

/-- Python `round(x, 6)`. -/
def pyRound6 (x : ℚ) : ℚ := (pyRoundInt (x * 1000000) : ℚ) / 1000000

/-- The `rescale_top` post-processing step of `rank_my_connections`:
```
if rescale_top and scored:
    max_score_val = max(r.score for r in scored) or 1.0
    if max_score_val > 0:
        for r in scored:
            r.score = round((r.score / max_score_val) * float(rescale_top), 6)
```
applied to the list of (already rounded) scores. -/
def rescale_step (rescale_top : Option ℚ) (scores : List ℚ) : List ℚ :=
  match rescale_top, scores with
  | some c, v :: vs =>
    if c = 0 then v :: vs
    else
      let m0 := listMax v vs
      let m := if m0 = 0 then 1 else m0
      if 0 < m then (v :: vs).map (fun s => pyRound6 (s / m * c)) else v :: vs
  | _, s => s

/-! ## Per-candidate component assembly (rank_my_connections.py, 122-196) -/

/-- Python `_jaccard(a, b)` (lines 448-453) over string sets. -/
def _jaccard (a b : Finset String) : ℚ :=
  if a = ∅ ∧ b = ∅ then 0
  else if (a ∪ b).card = 0 then 0
  else ((a ∩ b).card : ℚ) / ((a ∪ b).card : ℚ)

/-- The module-level `_ROLE_ROOTS` constant (lines 18-23). -/
def _ROLE_ROOTS : List String :=
  ["engineer", "developer", "manager", "analyst", "designer", "scientist",
   "architect", "software", "backend", "front", "frontend", "fullstack",
   "full-stack", "data", "ml", "ai", "qa", "sre", "devops",
   "security", "mobile", "ios", "android"]

/-- Python `needle in hay` substring test, on character lists. -/
def isSubstrList (needle : List Char) : List Char → Bool
  | [] => needle.isEmpty
  | c :: rest => needle.isPrefixOf (c :: rest) || isSubstrList needle rest

/-- Python `needle in hay` substring test on strings. -/
def isSubstr (needle hay : String) : Bool := isSubstrList needle.data hay.data

/-- Python `_expand_job_tokens(tokens)` (lines 457-482), as the resulting
token set: the original tokens plus every role root that occurs as a proper
substring of a token of length at least 6. -/
def _expand_job_tokens (tokens : List String) : Finset String :=
  tokens.toFinset ∪ (_ROLE_ROOTS.filter (fun root =>
    tokens.any (fun tok => 6 ≤ tok.length && isSubstr root tok && root != tok))).toFinset

structure PersonRow where
  skills : List String
  jobTitleCanonTokens : List String
  jobTitleTokens : List String
  bridgePotentialSkills : ℚ
  bridgePotentialJob : ℚ

structure PersonFeatures where
  skills : List String
  job_tokens : List String
  bp_skills : ℚ
  bp_job : ℚ

/-- Python `_fetch_candidate_features` (lines 590-618) per row: lowercases the
skills and the concatenated job-token lists. -/
def _fetch_candidate_features (row : PersonRow) : PersonFeatures :=
  { skills := row.skills.map pyLower
    job_tokens := (row.jobTitleCanonTokens ++ row.jobTitleTokens).map pyLower
    bp_skills := row.bridgePotentialSkills
    bp_job := row.bridgePotentialJob }

/-- Python `_pinecone_similarity` (lines 644-673): the id → score dict built
from the raw vector-store matches, keeping only allowed ids; a later match for
the same id overwrites an earlier one.  Scores are stored unmodified. -/
def _pinecone_similarity (matchList : List (String × ℚ)) (allowed : List String)
    (pid : String) : Option ℚ :=
  (matchList.filter (fun m => allowed.contains m.1)).foldl
    (fun acc m => if m.1 == pid then some m.2 else acc) none

/-- Python `_ego_bridging_on_knows` (lines 621-639): ego = me's distinct
`KNOWS` neighbours; per member, the bridging coefficient of the subgraph
induced by the ego set.  Members without intra-ego neighbours are dropped by
the `UNWIND` and read later as `0`, which is also the formula's value. -/
def _ego_bridging_on_knows (knows : SimGraph) (me : String) : String → ℚ :=
  let ego := neighborsOf knows me
  let egoSub : SimGraph :=
    ⟨ego, knows.edges.filter (fun e => ego.contains e.1 && ego.contains e.2)⟩
  fun p => if p ∈ ego then storedBridgeCoeff egoSub p else 0

structure Components where
  vec_sim : ℚ
  skill_match : ℚ
  job_match : ℚ
  struct_global : ℚ
  struct_ego : ℚ
  company_match : ℚ

/-- The six per-candidate component values assembled by `rank_my_connections`
(steps 3-6, lines 122-196): raw vector score with default `0`,
skill/job/company Jaccard matches, and the two min-max normalized structural
signals. -/
def componentsOf (candidate_ids : List String) (matchList : List (String × ℚ))
    (feats : String → PersonFeatures)
    (goal_skills goal_job_tokens goal_companies : List String)
    (cand_companies : String → List String)
    (knows : SimGraph) (me : String) (pid : String) : Components :=
  { vec_sim := (_pinecone_similarity matchList candidate_ids pid).getD 0
    skill_match :=
      _jaccard ((goal_skills.map pyLower).toFinset) ((feats pid).skills.toFinset)
    job_match :=
      _jaccard goal_job_tokens.toFinset (_expand_job_tokens (feats pid).job_tokens)
    struct_global :=
      _minmax_on_subset (fun q => (feats q).bp_skills + (feats q).bp_job) candidate_ids pid
    struct_ego :=
      _minmax_on_subset (_ego_bridging_on_knows knows me) candidate_ids pid
    company_match :=
      if goal_companies ≠ [] then
        _jaccard goal_companies.toFinset (cand_companies pid).toFinset
      else 0 }

/-! ## `_fetch_candidate_connections` (rank_my_connections.py, lines 509-577) -/

structure RankPerson where
  id : String
  skills : List String
  jobTitleCanonTokens : List String
  company : Option String
  workedAt : List String

structure RankGraph where
  persons : List RankPerson
  knows : List (String × String)

/-- Rows of `MATCH (me:Person {id:$meId})-[:KNOWS]-(p:Person)`. -/
def knowsRows (g : RankGraph) (me : String) : List RankPerson :=
  g.persons.filter (fun p =>
    g.knows.any (fun e => (e.1 == me && e.2 == p.id) || (e.1 == p.id && e.2 == me)))

/-- The `companies` list the query builds per candidate: lowercased
`WORKED_AT` company names plus the `company` scalar property (when non-empty)
if the schema has `Company` nodes, else just the scalar.  `toLower(null)` is
`null` and `null IN list` never holds, so a missing scalar contributes
nothing. -/
def candidateCompanies (schemaHasCompany : Bool) (p : RankPerson) : List String :=
  if schemaHasCompany then
    let relCompanies := (p.workedAt.map pyLower).dedup
    match p.company with
    | some c => if pyLower c ≠ "" then relCompanies ++ [pyLower c] else relCompanies
    | none => relCompanies
  else
    match p.company with
    | some c => [pyLower c]
    | none => []

/-- `$useSkills AND any(s IN coalesce(p.skills,[]) WHERE toLower(s) IN $skillList)`. -/
def condSkillsB (goal_skills : List String) (p : RankPerson) : Bool :=
  !goal_skills.isEmpty &&
    p.skills.any (fun s => (goal_skills.map pyLower).contains (pyLower s))

/-- `$useJobs AND size([t IN coalesce(p.jobTitleCanonTokens,[]) WHERE t IN $jobTokens]) > 0`. -/
def condJobB (goal_job_tokens : List String) (p : RankPerson) : Bool :=
  !goal_job_tokens.isEmpty &&
    decide (0 < (p.jobTitleCanonTokens.filter (fun t => goal_job_tokens.contains t)).length)

/-- `$useCompanies AND any(x IN companies WHERE x IN $companyList)`. -/
def condCompanyB (schemaHasCompany : Bool) (goal_companies : List String)
    (p : RankPerson) : Bool :=
  !goal_companies.isEmpty &&
    (candidateCompanies schemaHasCompany p).any
      (fun x => (goal_companies.map pyLower).contains x)

/-- Python `_fetch_candidate_connections(driver, me_id, goal_skills,
goal_job_tokens, goal_companies)`: candidate ids with optional prefiltering,
following the dynamically built Cypher `WHERE` clause (`AND` of the job and
company conditions when both are present without skills, else an `OR` of the
guarded conditions). -/
def _fetch_candidate_connections (g : RankGraph) (schemaHasCompany : Bool)
    (me : String) (goal_skills goal_job_tokens goal_companies : List String) :
    List String :=
  if goal_skills = [] ∧ goal_job_tokens = [] ∧ goal_companies = [] then
    ((knowsRows g me).map RankPerson.id).dedup
  else if ¬ goal_job_tokens = [] ∧ ¬ goal_companies = [] ∧ goal_skills = [] then
    ((knowsRows g me).filter (fun p =>
      condJobB goal_job_tokens p && condCompanyB schemaHasCompany goal_companies p)).map
      RankPerson.id
  else
    ((knowsRows g me).filter (fun p =>
      condSkillsB goal_skills p || condJobB goal_job_tokens p ||
        condCompanyB schemaHasCompany goal_companies p)).map RankPerson.id

/-- The candidate condition exactly as claim C4 words it: with all goal lists
empty no restriction; with both job tokens and companies present and no
skills, the conjunction of the job and company hits; otherwise a disjunction
over the non-empty goal dimensions. -/
def claimPrefilterCond (schemaHasCompany : Bool)
    (goal_skills goal_job_tokens goal_companies : List String)
    (p : RankPerson) : Prop :=
  if goal_skills = [] ∧ goal_job_tokens = [] ∧ goal_companies = [] then True
  else
    let skillHit := ∃ s ∈ p.skills, pyLower s ∈ goal_skills.map pyLower
    let jobHit := ∃ t ∈ p.jobTitleCanonTokens, t ∈ goal_job_tokens
    let companyHit :=
      ∃ x ∈ candidateCompanies schemaHasCompany p, x ∈ goal_companies.map pyLower
    if ¬ goal_job_tokens = [] ∧ ¬ goal_companies = [] ∧ goal_skills = [] then
      jobHit ∧ companyHit
    else
      (¬ goal_skills = [] ∧ skillHit) ∨ (¬ goal_job_tokens = [] ∧ jobHit) ∨
        (¬ goal_companies = [] ∧ companyHit)

/-! ## `_levenshtein` and `_fuzzy_normalize_companies` (rank_my_connections.py, 366-416) -/

/-- Inner loop of `_levenshtein`: the current row after its leading `i`,
built from the characters of `b`, the previous row (walked pairwise for
`prev[j-1]` and `prev[j]`) and the last value appended (`cur[j-1]`). -/
def levLoop (ca : Char) : List Char → List ℕ → ℕ → List ℕ
  | cb :: bs, pjm1 :: pj :: prest, last =>
    let cell := min (pj + 1) (min (last + 1) (pjm1 + (if ca = cb then 0 else 1)))
    cell :: levLoop ca bs (pj :: prest) cell
  | _, _, _ => []

/-- Outer loop of `_levenshtein` over the characters of `a`, with
`enumerate(a, 1)` index `i`; returns the final `prev` row. -/
def levRows (bs : List Char) : List Char → ℕ → List ℕ → List ℕ
  | [], _, prev => prev
  | ca :: arest, i, prev => levRows bs arest (i + 1) (i :: levLoop ca bs prev i)

/-- Python `_levenshtein(a, b)` (lines 366-382). -/
def _levenshtein (a b : String) : ℕ :=
  if a = b then 0
  else if a.data.isEmpty then b.data.length
  else if b.data.isEmpty then a.data.length
  else (levRows b.data a.data 1 (List.range (b.data.length + 1))).getLastD 0

/-- Per-target contribution of the `_fuzzy_normalize_companies` loop body
(lines 396-415): an exact match short-circuits to `{t}` alone; otherwise a
non-empty prefix-match set short-circuits to exactly that set; only otherwise
does the bounded Levenshtein scan run (its quick length filter skips
candidates whose length differs by more than 3). -/
def fuzzyContrib (u_set : Finset String) (t0 : String) : Finset String :=
  let t := pyStrip (pyLower t0)
  if t = "" then ∅
  else if t ∈ u_set then {t}
  else
    let sw := u_set.filter (fun u => (pyStartsWith u t || pyStartsWith t u) = true)
    if sw ≠ ∅ then sw
    else u_set.filter (fun u =>
      max u.length t.length - min u.length t.length ≤ 3 ∧
        _levenshtein t u ≤ (if max t.length u.length ≤ 8 then 2 else 3))

/-- Python `_fuzzy_normalize_companies(targets, universe)` (lines 385-416):
each loop iteration only adds its target's contribution to `out`. -/
def _fuzzy_normalize_companies (targets univ : List String) : Finset String :=
  let u_set := (univ.map pyLower).toFinset
  targets.foldl (fun out t0 => out ∪ fuzzyContrib u_set t0) ∅

/-! ## `_tokenize` and `_parse_query` (rank_my_connections.py, 212-267) -/

/-- Characters the first regex of `_tokenize` keeps (everything matching
`[^a-z0-9\s/+&-]` is replaced by a space). -/
def keepChar (c : Char) : Bool :=
  ('a' ≤ c && c ≤ 'z') || ('0' ≤ c && c ≤ '9') || c.isWhitespace ||
    c == '/' || c == '+' || c == '&' || c == '-'

/-- Characters `re.split(r"[ \t/+\-&]+", t)` splits on; all other whitespace
has been collapsed into spaces by the preceding `\s+` substitution, so
splitting on every whitespace character is equivalent. -/
def sepChar (c : Char) : Bool :=
  c.isWhitespace || c == '/' || c == '+' || c == '-' || c == '&'

/-- Python `_tokenize(text)` (lines 212-222). -/
def _tokenize (text : String) : List String :=
  let cleaned := (pyLower text).data.map (fun c => if keepChar c then c else ' ')
  ((cleaned.splitOnP sepChar).filter (fun p => !p.isEmpty)).map (fun p => String.mk p)

/-- Ascending (lexicographic) insertion, for Python `sorted`. -/
def insertAsc (x : String) : List String → List String
  | [] => [x]
  | y :: ys => if pyStrLt x y then x :: y :: ys else y :: insertAsc x ys

/-- Python `sorted` on a list of strings. -/
def sortStrs (l : List String) : List String := l.foldr insertAsc []

/-- `role_terms = role_roots | {r + "s" for r in role_roots if not r.endswith("s")}`
(line 251). -/
def role_terms : List String :=
  _ROLE_ROOTS ++ (_ROLE_ROOTS.filter (fun r => !pyEndsWith r "s")).map (fun r => r ++ "s")

/-- `singularize` inside `_parse_query` (lines 253-260). -/
def singularize (t : String) : String :=
  if pyEndsWith t "s" ∧ pyDropLast t ∈ _ROLE_ROOTS then pyDropLast t else t

/-- Python `_parse_query(goal_text, all_skills)` (lines 225-267). -/
def _parse_query (goal_text : String) (all_skills : List String) :
    List String × List String :=
  let tokens := _tokenize goal_text
  let skills_set :=
    (all_skills.filter (fun s => s ≠ "" ∧ pyStrip s ≠ "")).map (fun s => pyStrip (pyLower s))
  let goal_skills := sortStrs ((tokens.filter (fun t => skills_set.contains t)).dedup)
  let goal_job_tokens := sortStrs
    (((tokens.filter (fun t => role_terms.contains t || pyEndsWith t "engineer")).map
      singularize).dedup)
  (goal_skills, goal_job_tokens)

/-! ## Weight unpacking and scoring (rank_my_connections.py, 84-91 and 167-196) -/

/-- The weight unpacking at the top of `rank_my_connections` (lines 84-91):
five weights set the company weight ζ to 0; any length other than 5 or 6
raises `ValueError`. -/
def unpack_weights (weights : List ℚ) : Except String (ℚ × ℚ × ℚ × ℚ × ℚ × ℚ) :=
  match weights with
  | [a, b, c, d, e] => .ok (a, b, c, d, e, 0)
  | [a, b, c, d, e, f] => .ok (a, b, c, d, e, f)
  | _ => .error "weights must have length 5 or 6"

/-- Whether an `Except` value is a success, i.e. no exception was raised. -/
def isOkB {α : Type} : Except String α → Bool
  | .ok _ => true
  | .error _ => false

/-- The raw weighted sum of lines 173-180:
`α·vec + β·skill + γ·job + δ·struct_global + ε·struct_ego + ζ·company`. -/
def weightedScore (w : ℚ × ℚ × ℚ × ℚ × ℚ × ℚ) (c : Components) : ℚ :=
  w.1 * c.vec_sim + w.2.1 * c.skill_match + w.2.2.1 * c.job_match +
    w.2.2.2.1 * c.struct_global + w.2.2.2.2.1 * c.struct_ego +
    w.2.2.2.2.2 * c.company_match

/-- The 5-tuple of weights the `/rank-connections/batch` handler builds
(app.py line 379) and passes to `rank_my_connections`. -/
def batch_weights (w_vec w_skill w_job w_struct_global w_struct_ego : ℚ) :
    List ℚ :=
  [w_vec, w_skill, w_job, w_struct_global, w_struct_ego]

/-! ## `/rank-connections/explain` (app.py, lines 350-363)

The handler calls `_fetch_candidate_connections(drv, req.me_id, goal_skills…,
goal_job_tokens…)` with four positional arguments, while the callee declares
five positional parameters without defaults (`driver, me_id, goal_skills,
goal_job_tokens, goal_companies`, rank_my_connections.py lines 509-515).
Python raises `TypeError` for such a call before the callee body runs; the
model carries the two arities explicitly. -/

inductive PyOutcome (α : Type) where
  | ok (val : α)
  | typeError (msg : String)
deriving DecidableEq

/-- Required positional parameters of `_fetch_candidate_connections`. -/
def fetch_candidate_connections_arity : ℕ := 5

/-- Positional arguments passed at the call site inside
`rank_connections_explain` (app.py line 355). -/
def explain_call_args : ℕ := 4

structure ExplainResponse where
  goal_skills : List String
  goal_job_tokens : List String
  candidate_count : ℕ
  candidate_sample : List String
deriving DecidableEq

/-- The `/rank-connections/explain` handler: parse the query, call the
candidate fetch (which raises `TypeError` when the passed argument count does
not meet the callee's arity), and package the response. -/
def rank_connections_explain (g : RankGraph) (schemaHasCompany : Bool)
    (all_skills : List String) (me_id query : String) (prefilter : Bool)
    (sample : ℕ) : PyOutcome ExplainResponse :=
  let parsed := _parse_query query all_skills
  if explain_call_args = fetch_candidate_connections_arity then
    let cands := _fetch_candidate_connections g schemaHasCompany me_id
      (if prefilter then parsed.1 else []) (if prefilter then parsed.2 else []) []
    .ok ⟨parsed.1, parsed.2, cands.length, cands.take sample⟩
  else
    .typeError
      "_fetch_candidate_connections() missing 1 required positional argument: goal_companies"

/-- Concrete one-edge layer graph a—b used by the exclusion scenarios. -/
def cexGraph : SimGraph := ⟨["a", "b"], [("a", "b")]⟩

/-- Fresh person state: no metric property has been written yet. -/
def cexInit : String → MetricProps := fun _ => ⟨none, none, none, none, none⟩

/-! ## Supporting lemmas -/

theorem foldMin_le_seed (a : ℚ) (l : List ℚ) : foldMin a l ≤ a := by
  induction l generalizing a with
  | nil => simp [foldMin]
  | cons x xs ih =>
    have h := ih (min a x)
    calc foldMin a (x :: xs) = foldMin (min a x) xs := rfl
    _ ≤ min a x := h
    _ ≤ a := min_le_left _ _

theorem foldMin_le_mem (a : ℚ) (l : List ℚ) (x : ℚ) (hx : x ∈ l) :
    foldMin a l ≤ x := by
  induction l generalizing a with
  | nil => cases hx
  | cons y ys ih =>
    rcases List.mem_cons.mp hx with h | h
    · subst h
      calc foldMin a (x :: ys) = foldMin (min a x) ys := rfl
      _ ≤ min a x := foldMin_le_seed _ _
      _ ≤ x := min_le_right _ _
    · exact ih (min a y) h

theorem seed_le_foldMax (a : ℚ) (l : List ℚ) : a ≤ foldMax a l := by
  induction l generalizing a with
  | nil => simp [foldMax]
  | cons x xs ih =>
    have h := ih (max a x)
    calc a ≤ max a x := le_max_left _ _
    _ ≤ foldMax (max a x) xs := h
    _ = foldMax a (x :: xs) := rfl

theorem mem_le_foldMax (a : ℚ) (l : List ℚ) (x : ℚ) (hx : x ∈ l) :
    x ≤ foldMax a l := by
  induction l generalizing a with
  | nil => cases hx
  | cons y ys ih =>
    rcases List.mem_cons.mp hx with h | h
    · subst h
      calc x ≤ max a x := le_max_right _ _
      _ ≤ foldMax (max a x) ys := seed_le_foldMax _ _
      _ = foldMax a (x :: ys) := rfl
    · exact ih (max a y) h

theorem listMin_le_mem (v : ℚ) (vs : List ℚ) (x : ℚ) (hx : x ∈ v :: vs) :
    listMin v vs ≤ x := by
  rcases List.mem_cons.mp hx with h | h
  · subst h; exact foldMin_le_seed _ _
  · exact foldMin_le_mem _ _ _ h

theorem mem_le_listMax (v : ℚ) (vs : List ℚ) (x : ℚ) (hx : x ∈ v :: vs) :
    x ≤ listMax v vs := by
  rcases List.mem_cons.mp hx with h | h
  · subst h; exact seed_le_foldMax _ _
  · exact mem_le_foldMax _ _ _ h

theorem foldMin_const (a : ℚ) (l : List ℚ) (h : ∀ x ∈ l, x = a) :
    foldMin a l = a := by
  induction l with
  | nil => rfl
  | cons x xs ih =>
    have hx : x = a := h x (List.mem_cons_self _ _)
    subst hx
    have : ∀ y ∈ xs, y = x := fun y hy => h y (List.mem_cons_of_mem _ hy)
    calc foldMin x (x :: xs) = foldMin (min x x) xs := rfl
    _ = foldMin x xs := by rw [min_self]
    _ = x := ih this

theorem foldMax_const (a : ℚ) (l : List ℚ) (h : ∀ x ∈ l, x = a) :
    foldMax a l = a := by
  induction l with
  | nil => rfl
  | cons x xs ih =>
    have hx : x = a := h x (List.mem_cons_self _ _)
    subst hx
    have : ∀ y ∈ xs, y = x := fun y hy => h y (List.mem_cons_of_mem _ hy)
    calc foldMax x (x :: xs) = foldMax (max x x) xs := rfl
    _ = foldMax x xs := by rw [max_self]
    _ = x := ih this

theorem minmax_nonneg (values : String → ℚ) (subset : List String) (k : String) :
    0 ≤ _minmax_on_subset values subset k := by
  unfold _minmax_on_subset
  cases hmap : subset.map values with
  | nil => exact le_refl 0
  | cons v vs =>
    dsimp only
    split
    · exact le_refl 0
    · rename_i hlt
      dsimp only
      split
      · rename_i hk
        have hmem : values k ∈ v :: vs := hmap ▸ List.mem_map_of_mem values hk
        have h1 : listMin v vs ≤ values k := listMin_le_mem _ _ _ hmem
        have h2 : listMin v vs < listMax v vs := lt_of_not_le hlt
        exact div_nonneg (by linarith) (by linarith)
      · exact le_refl 0

theorem minmax_le_one (values : String → ℚ) (subset : List String) (k : String) :
    _minmax_on_subset values subset k ≤ 1 := by
  unfold _minmax_on_subset
  cases hmap : subset.map values with
  | nil => exact zero_le_one
  | cons v vs =>
    dsimp only
    split
    · exact zero_le_one
    · rename_i hlt
      dsimp only
      split
      · rename_i hk
        have hmem : values k ∈ v :: vs := hmap ▸ List.mem_map_of_mem values hk
        have h1 : values k ≤ listMax v vs := mem_le_listMax _ _ _ hmem
        have h2 : listMin v vs < listMax v vs := lt_of_not_le hlt
        exact div_le_one_of_le₀ (by linarith) (by linarith)
      · exact zero_le_one

theorem bridgeCoeffOf_nonneg (deg : ℕ) (nd : List ℕ) : 0 ≤ bridgeCoeffOf deg nd := by
  unfold bridgeCoeffOf
  dsimp only
  split
  · split
    · rename_i hpos
      exact mul_nonneg (one_div_nonneg.mpr (by positivity)) (one_div_nonneg.mpr (le_of_lt hpos))
    · exact le_refl 0
  · exact le_refl 0

theorem floor_le_pyRoundInt (q : ℚ) : ⌊q⌋ ≤ pyRoundInt q := by
  unfold pyRoundInt
  dsimp only
  split
  · exact le_refl _
  · split
    · omega
    · split <;> omega

theorem pyRoundInt_le_floor_add_one (q : ℚ) : pyRoundInt q ≤ ⌊q⌋ + 1 := by
  unfold pyRoundInt
  dsimp only
  split
  · omega
  · split
    · exact le_refl _
    · split <;> omega

theorem pyRoundInt_mono {q r : ℚ} (h : q ≤ r) : pyRoundInt q ≤ pyRoundInt r := by
  have hf : ⌊q⌋ ≤ ⌊r⌋ := Int.floor_le_floor h
  rcases eq_or_lt_of_le hf with heq | hlt
  · have hfrac : q - (⌊q⌋ : ℚ) ≤ r - (⌊r⌋ : ℚ) := by
      rw [← heq]
      linarith
    unfold pyRoundInt
    dsimp only
    by_cases h1 : q - (⌊q⌋ : ℚ) < 1 / 2
    · rw [if_pos h1]
      rw [heq]
      split
      · exact le_refl _
      · split
        · omega
        · split <;> omega
    · have h2 : ¬ (r - (⌊r⌋ : ℚ) < 1 / 2) := by
        intro hc
        exact h1 (lt_of_le_of_lt hfrac hc)
      rw [if_neg h1, if_neg h2]
      by_cases h3 : 1 / 2 < q - (⌊q⌋ : ℚ)
      · have h4 : 1 / 2 < r - (⌊r⌋ : ℚ) := lt_of_lt_of_le h3 hfrac
        rw [if_pos h3, if_pos h4]
        omega
      · rw [if_neg h3]
        rw [heq]
        by_cases h4 : 1 / 2 < r - (⌊r⌋ : ℚ)
        · rw [if_pos h4]
          split <;> omega
        · rw [if_neg h4]
  · calc pyRoundInt q ≤ ⌊q⌋ + 1 := pyRoundInt_le_floor_add_one q
    _ ≤ ⌊r⌋ := by omega
    _ ≤ pyRoundInt r := floor_le_pyRoundInt r

theorem pyRound6_mono {q r : ℚ} (h : q ≤ r) : pyRound6 q ≤ pyRound6 r := by
  unfold pyRound6
  have hm : pyRoundInt (q * 1000000) ≤ pyRoundInt (r * 1000000) :=
    pyRoundInt_mono (by linarith)
  have hc : ((pyRoundInt (q * 1000000) : ℚ)) ≤ ((pyRoundInt (r * 1000000) : ℚ)) := by
    exact_mod_cast hm
  have hden : (0 : ℚ) ≤ 1 / 1000000 := by norm_num
  calc (pyRoundInt (q * 1000000) : ℚ) / 1000000
      = (pyRoundInt (q * 1000000) : ℚ) * (1 / 1000000) := by ring
  _ ≤ (pyRoundInt (r * 1000000) : ℚ) * (1 / 1000000) := mul_le_mul_of_nonneg_right hc hden
  _ = (pyRoundInt (r * 1000000) : ℚ) / 1000000 := by ring

theorem rescale_step_length (c : ℚ) (scores : List ℚ) :
    (rescale_step (some c) scores).length = scores.length := by
  cases scores with
  | nil => rfl
  | cons v vs =>
    simp only [rescale_step]
    repeat' split
    all_goals simp

theorem getD_map_of_lt (f : ℚ → ℚ) (l : List ℚ) (k : ℕ) (hk : k < l.length) :
    (l.map f).getD k 0 = f (l.getD k 0) := by
  induction l generalizing k with
  | nil => simp at hk
  | cons x xs ih =>
    cases k with
    | zero => rfl
    | succ n => exact ih n (by simpa using hk)

theorem jaccard_nonneg (a b : Finset String) : 0 ≤ _jaccard a b := by
  unfold _jaccard
  split
  · exact le_refl 0
  · split
    · exact le_refl 0
    · positivity

theorem jaccard_le_one (a b : Finset String) : _jaccard a b ≤ 1 := by
  unfold _jaccard
  split
  · exact zero_le_one
  · split
    · exact zero_le_one
    · rename_i h1 h2
      have hsub : a ∩ b ⊆ a ∪ b := Finset.inter_subset_left.trans Finset.subset_union_left
      have hcard : (a ∩ b).card ≤ (a ∪ b).card := Finset.card_le_card hsub
      have hpos : (0 : ℚ) < ((a ∪ b).card : ℚ) := by
        exact_mod_cast Nat.pos_of_ne_zero h2
      exact div_le_one_of_le₀ (by exact_mod_cast hcard) (le_of_lt hpos)

theorem mem_foldl_union (f : String → Finset String) (ts : List String)
    (acc : Finset String) (x : String) :
    x ∈ ts.foldl (fun o t => o ∪ f t) acc ↔ x ∈ acc ∨ ∃ t ∈ ts, x ∈ f t := by
  induction ts generalizing acc with
  | nil => simp
  | cons hd tl ih =>
    simp only [List.foldl_cons, ih, Finset.mem_union, List.mem_cons]
    constructor
    · rintro ((hx | hx) | ⟨t, ht, hx⟩)
      · exact Or.inl hx
      · exact Or.inr ⟨hd, Or.inl rfl, hx⟩
      · exact Or.inr ⟨t, Or.inr ht, hx⟩
    · rintro (hx | ⟨t, rfl | ht, hx⟩)
      · exact Or.inl (Or.inl hx)
      · exact Or.inl (Or.inr hx)
      · exact Or.inr ⟨t, ht, hx⟩

theorem mem_fuzzyContrib (u_set : Finset String) (t0 x : String) :
    x ∈ fuzzyContrib u_set t0 ↔
      (pyStrip (pyLower t0) ≠ "" ∧
        ((pyStrip (pyLower t0) ∈ u_set ∧ x = pyStrip (pyLower t0)) ∨
         (pyStrip (pyLower t0) ∉ u_set ∧
           (∃ u ∈ u_set, pyStartsWith u (pyStrip (pyLower t0)) ∨
              pyStartsWith (pyStrip (pyLower t0)) u) ∧
           x ∈ u_set ∧
           (pyStartsWith x (pyStrip (pyLower t0)) ∨
              pyStartsWith (pyStrip (pyLower t0)) x)) ∨
         (pyStrip (pyLower t0) ∉ u_set ∧
           (∀ u ∈ u_set, ¬ (pyStartsWith u (pyStrip (pyLower t0)) ∨
              pyStartsWith (pyStrip (pyLower t0)) u)) ∧
           x ∈ u_set ∧
           max x.length (pyStrip (pyLower t0)).length -
             min x.length (pyStrip (pyLower t0)).length ≤ 3 ∧
           _levenshtein (pyStrip (pyLower t0)) x ≤
             (if max (pyStrip (pyLower t0)).length x.length ≤ 8 then 2 else 3)))) := by
  unfold fuzzyContrib
  by_cases h0 : pyStrip (pyLower t0) = ""
  · simp [h0]
  · rw [if_neg h0]
    by_cases h1 : pyStrip (pyLower t0) ∈ u_set
    · rw [if_pos h1]
      simp only [Finset.mem_singleton]
      constructor
      · intro hx
        exact ⟨h0, Or.inl ⟨h1, hx⟩⟩
      · rintro ⟨-, (⟨-, hx⟩ | ⟨hn, -⟩ | ⟨hn, -⟩)⟩
        · exact hx
        · exact absurd h1 hn
        · exact absurd h1 hn
    · rw [if_neg h1]
      by_cases h2 : u_set.filter
          (fun u => (pyStartsWith u (pyStrip (pyLower t0)) ||
            pyStartsWith (pyStrip (pyLower t0)) u) = true) ≠ ∅
      · rw [if_pos h2]
        have hex : ∃ u ∈ u_set, pyStartsWith u (pyStrip (pyLower t0)) ∨
            pyStartsWith (pyStrip (pyLower t0)) u := by
          rcases Finset.nonempty_iff_ne_empty.mpr h2 with ⟨u, hu⟩
          rcases Finset.mem_filter.mp hu with ⟨hu1, hu2⟩
          exact ⟨u, hu1, by simpa using hu2⟩
        simp only [Finset.mem_filter, Bool.or_eq_true]
        constructor
        · rintro ⟨hxu, hpref⟩
          exact ⟨h0, Or.inr (Or.inl ⟨h1, hex, hxu, by simpa using hpref⟩)⟩
        · rintro ⟨-, (⟨hn, -⟩ | ⟨-, -, hxu, hpref⟩ | ⟨-, hall, -, -⟩)⟩
          · exact absurd hn h1
          · exact ⟨hxu, by simpa using hpref⟩
          · rcases hex with ⟨u, hu, hpu⟩
            exact absurd hpu (hall u hu)
      · rw [if_neg h2]
        have hall : ∀ u ∈ u_set, ¬ (pyStartsWith u (pyStrip (pyLower t0)) ∨
            pyStartsWith (pyStrip (pyLower t0)) u) := by
          have heq := not_not.mp h2
          intro u hu hpu
          exact (Finset.filter_eq_empty_iff.mp heq) hu (by simpa using hpu)
        simp only [Finset.mem_filter]
        constructor
        · rintro ⟨hxu, hlen, hlev⟩
          exact ⟨h0, Or.inr (Or.inr ⟨h1, hall, hxu, hlen, hlev⟩)⟩
        · rintro ⟨-, (⟨hn, -⟩ | ⟨-, hex, -, -⟩ | ⟨-, -, hxu, hlen, hlev⟩)⟩
          · exact absurd hn h1
          · rcases hex with ⟨u, hu, hpu⟩
            exact absurd hpu (hall u hu)
          · exact ⟨hxu, hlen, hlev⟩

theorem condSkillsB_iff (gs : List String) (p : RankPerson) :
    condSkillsB gs p = true ↔ (¬ gs = [] ∧ ∃ s ∈ p.skills, pyLower s ∈ gs.map pyLower) := by
  unfold condSkillsB
  simp [List.isEmpty_iff, List.any_eq_true]

theorem condJobB_iff (gj : List String) (p : RankPerson) :
    condJobB gj p = true ↔ (¬ gj = [] ∧ ∃ t ∈ p.jobTitleCanonTokens, t ∈ gj) := by
  unfold condJobB
  simp only [Bool.and_eq_true, Bool.not_eq_true', List.isEmpty_iff, decide_eq_true_iff,
    List.length_pos, ne_eq, List.filter_eq_nil_iff, not_forall]
  constructor
  · rintro ⟨h1, h2⟩
    push_neg at h2
    rcases h2 with ⟨t, ht, htc⟩
    exact ⟨by simpa using h1, t, ht, by simpa using htc⟩
  · rintro ⟨h1, t, ht, htc⟩
    refine ⟨by simpa using h1, ?_⟩
    push_neg
    exact ⟨t, ht, by simpa using htc⟩

theorem condCompanyB_iff (schemaHasCompany : Bool) (gc : List String) (p : RankPerson) :
    condCompanyB schemaHasCompany gc p = true ↔
      (¬ gc = [] ∧ ∃ x ∈ candidateCompanies schemaHasCompany p, x ∈ gc.map pyLower) := by
  unfold condCompanyB
  simp [List.isEmpty_iff, List.any_eq_true]

/-! ## Claim theorems -/

/-- C1 (counterexample): on the 3-vertex path a—b—c, the coefficient
`run_metrics_generic` computes and stores for the endpoint `a` is
`(1/deg(a)) / (1/deg(b)) = 2`, violating the claimed upper bound
`bridgeCoeff ≤ 1`. -/
theorem bridge_coeff_above_one_cex :
    ¬ (storedBridgeCoeff ⟨["a", "b", "c"], [("a", "b"), ("b", "c")]⟩ "a" ≤ 1) := by
  have hdeg : degreeOf ⟨["a", "b", "c"], [("a", "b"), ("b", "c")]⟩ "a" = 1 := by decide
  have hnd : neighbourDegrees ⟨["a", "b", "c"], [("a", "b"), ("b", "c")]⟩ "a" = [2] := by
    decide
  have hval : storedBridgeCoeff ⟨["a", "b", "c"], [("a", "b"), ("b", "c")]⟩ "a" = 2 := by
    rw [storedBridgeCoeff, hdeg, hnd]
    norm_num [bridgeCoeffOf]
  rw [hval]
  norm_num

/-- C1 (amended): the bridging coefficient stored by `run_metrics_generic` is
nonnegative for every layer graph and person; the upper bound 1 of the
original claim does not hold (the coefficient reaches 2 on a 3-vertex path). -/
theorem stored_bridge_coeff_nonneg (g : SimGraph) (v : String) :
    0 ≤ storedBridgeCoeff g v :=
  bridgeCoeffOf_nonneg _ _

/-- C10: `_minmax_on_subset` maps every key to 0 whenever all raw values over
the subset coincide — equivalently whenever the maximum over the subset is at
most the minimum, which covers the single-candidate case — so the structural
components then contribute 0 rather than 1 or any other constant. -/
theorem minmax_flat_all_zero (values : String → ℚ) (subset : List String)
    (hconst : ∀ a ∈ subset, ∀ b ∈ subset, values a = values b) (k : String) :
    _minmax_on_subset values subset k = 0 := by
  unfold _minmax_on_subset
  cases hmap : subset.map values with
  | nil => rfl
  | cons v vs =>
    dsimp only
    have hall : ∀ x ∈ v :: vs, x = v := by
      intro x hx
      have hx' : x ∈ subset.map values := by rw [hmap]; exact hx
      have hv' : v ∈ subset.map values := by rw [hmap]; exact List.mem_cons_self _ _
      rcases List.mem_map.mp hx' with ⟨a, ha, rfl⟩
      rcases List.mem_map.mp hv' with ⟨b, hb, hbv⟩
      rw [← hbv]
      exact hconst a ha b hb
    have hvs : ∀ x ∈ vs, x = v := fun x hx => hall x (List.mem_cons_of_mem _ hx)
    have hmx : listMax v vs = v := foldMax_const _ _ hvs
    have hmn : listMin v vs = v := foldMin_const _ _ hvs
    rw [if_pos (by rw [hmx, hmn])]

/-- C10 (witness): a single-candidate subset with a constant value yields 0. -/
theorem minmax_flat_all_zero_witness :
    _minmax_on_subset (fun _ => 5) ["solo"] "solo" = 0 :=
  minmax_flat_all_zero (fun _ => 5) ["solo"] (fun _ _ _ _ => rfl) "solo"

/-- C9: `rank_my_connections` raises `ValueError` exactly when the weights
tuple has a length other than 5 or 6; five weights set the company weight to
0, making `company_match` irrelevant to every final score; and the batch HTTP
endpoint builds exactly such a 5-tuple, silently disabling the company
signal. -/
theorem weights_contract :
    (∀ w : List ℚ, isOkB (unpack_weights w) = false ↔ ¬ (w.length = 5 ∨ w.length = 6)) ∧
    (∀ a b c d e : ℚ, unpack_weights [a, b, c, d, e] = .ok (a, b, c, d, e, 0)) ∧
    (∀ a b c d e vs sm jm sg se cm cm' : ℚ,
      weightedScore (a, b, c, d, e, 0) ⟨vs, sm, jm, sg, se, cm⟩ =
        weightedScore (a, b, c, d, e, 0) ⟨vs, sm, jm, sg, se, cm'⟩) ∧
    (∀ v s j sg se : ℚ, (batch_weights v s j sg se).length = 5) := by
  refine ⟨?_, ?_, ?_, ?_⟩
  · intro w
    rcases w with _ | ⟨a, _ | ⟨b, _ | ⟨c, _ | ⟨d, _ | ⟨e, _ | ⟨f, _ | ⟨g, rest⟩⟩⟩⟩⟩⟩⟩ <;>
      simp [unpack_weights, isOkB]
  · intro a b c d e
    rfl
  · intro a b c d e vs sm jm sg se cm cm'
    simp [weightedScore]
  · intro v s j sg se
    rfl

/-- C5 (code bug): the `/rank-connections/explain` handler parses the query
"software engineers with python" to `goal_skills = ["python"]` and
`goal_job_tokens = ["engineer", "software"]` as the claim expects, but its
call to `_fetch_candidate_connections` passes 4 positional arguments to a
function requiring 5, so every request raises `TypeError` instead of
returning the successful response the claim describes. -/
theorem explain_endpoint_type_error :
    rank_connections_explain ⟨[], []⟩ true ["python", "sql"] "me"
        "software engineers with python" true 3 =
      .typeError
        "_fetch_candidate_connections() missing 1 required positional argument: goal_companies" ∧
    _parse_query "software engineers with python" ["python", "sql"] =
      (["python"], ["engineer", "software"]) := by
  constructor
  · rfl
  · decide

/-- C6 (counterexample): the code stores the vector-store score unclamped; a
response scoring candidate "p" at 2 makes the returned component
`vec_sim = 2 ∉ [0, 1]`, refuting the claimed bound for `vec_sim`. -/
theorem components_vec_sim_cex :
    ¬ ((componentsOf ["p"] [("p", 2)] (fun _ => ⟨[], [], 0, 0⟩) [] [] [] (fun _ => [])
        ⟨[], []⟩ "me" "p").vec_sim ≤ 1) := by
  have h : (componentsOf ["p"] [("p", 2)] (fun _ => ⟨[], [], 0, 0⟩) [] [] [] (fun _ => [])
      ⟨[], []⟩ "me" "p").vec_sim = 2 := by
    simp [componentsOf, _pinecone_similarity]
  rw [h]
  norm_num

/-- C6 (amended): the five components other than `vec_sim` always lie in
`[0, 1]` (Jaccard matches and min-max normalizations), while `vec_sim` is the
raw vector-store score with default 0 and is not clamped, so it lies in
`[0, 1]` only if the store's scores do. -/
theorem components_bounds (cands : List String) (matchList : List (String × ℚ))
    (feats : String → PersonFeatures) (gs gj gc : List String)
    (cc : String → List String) (knows : SimGraph) (me pid : String) :
    (componentsOf cands matchList feats gs gj gc cc knows me pid).vec_sim =
        (_pinecone_similarity matchList cands pid).getD 0 ∧
    (0 ≤ (componentsOf cands matchList feats gs gj gc cc knows me pid).skill_match ∧
      (componentsOf cands matchList feats gs gj gc cc knows me pid).skill_match ≤ 1) ∧
    (0 ≤ (componentsOf cands matchList feats gs gj gc cc knows me pid).job_match ∧
      (componentsOf cands matchList feats gs gj gc cc knows me pid).job_match ≤ 1) ∧
    (0 ≤ (componentsOf cands matchList feats gs gj gc cc knows me pid).struct_global ∧
      (componentsOf cands matchList feats gs gj gc cc knows me pid).struct_global ≤ 1) ∧
    (0 ≤ (componentsOf cands matchList feats gs gj gc cc knows me pid).struct_ego ∧
      (componentsOf cands matchList feats gs gj gc cc knows me pid).struct_ego ≤ 1) ∧
    (0 ≤ (componentsOf cands matchList feats gs gj gc cc knows me pid).company_match ∧
      (componentsOf cands matchList feats gs gj gc cc knows me pid).company_match ≤ 1) := by
  simp only [componentsOf]
  refine ⟨by trivial, ⟨jaccard_nonneg _ _, jaccard_le_one _ _⟩,
    ⟨jaccard_nonneg _ _, jaccard_le_one _ _⟩,
    ⟨minmax_nonneg _ _ _, minmax_le_one _ _ _⟩,
    ⟨minmax_nonneg _ _ _, minmax_le_one _ _ _⟩, ?_⟩
  by_cases hgc : gc ≠ []
  · rw [if_pos hgc]
    exact ⟨jaccard_nonneg _ _, jaccard_le_one _ _⟩
  · rw [if_neg hgc]
    exact ⟨le_refl 0, zero_le_one⟩

/-- C2 (counterexample): with `min_shared_skills = 2` and `boost_company = 1`,
two persons sharing the company "acme" but no skills still get a `SIMILAR`
edge (the boost query `MERGE`s it), refuting "edge iff at least
`min_shared_skills` shared skills". -/
theorem similar_edge_without_shared_skills_cex :
    (build_similar_edges ⟨["a", "b"], [], [("a", "acme"), ("b", "acme")], []⟩ 2 .count 1 0
        "a" "b").isSome = true ∧
    ¬ (2 ≤ sharedSkillCount ⟨["a", "b"], [], [("a", "acme"), ("b", "acme")], []⟩ "a" "b") := by
  have hs : sharedSkillCount ⟨["a", "b"], [], [("a", "acme"), ("b", "acme")], []⟩ "a" "b"
      = 0 := by decide
  have hc : sharedCompanyCount ⟨["a", "b"], [], [("a", "acme"), ("b", "acme")], []⟩ "a" "b"
      = 1 := by decide
  have hu : sharedSchoolCount ⟨["a", "b"], [], [("a", "acme"), ("b", "acme")], []⟩ "a" "b"
      = 0 := by decide
  constructor
  · simp [build_similar_edges, hs, hc, hu]
  · rw [hs]
    norm_num

/-- C2 (amended): after `build_similar_edges` with `clear_existing=True`, the
ordered pair `(a, b)` carries a `SIMILAR` edge iff they share at least one and
at least `min_shared_skills` skills, or `boost_company > 0` and they share a
company, or `boost_school > 0` and they share a school — the boost queries
create edges on their own. -/
theorem similar_edge_exists_iff (db : PeopleDB) (minShared : ℕ) (mode : WeightMode)
    (bc bs : ℚ) (a b : String) :
    (build_similar_edges db minShared mode bc bs a b).isSome = true ↔
      ((0 < sharedSkillCount db a b ∧ minShared ≤ sharedSkillCount db a b) ∨
       (0 < bc ∧ 0 < sharedCompanyCount db a b) ∨
       (0 < bs ∧ 0 < sharedSchoolCount db a b)) := by
  unfold build_similar_edges
  dsimp only
  by_cases h1 : 0 < sharedSkillCount db a b ∧ minShared ≤ sharedSkillCount db a b <;>
    by_cases h2 : 0 < bc ∧ 0 < sharedCompanyCount db a b <;>
      by_cases h3 : 0 < bs ∧ 0 < sharedSchoolCount db a b <;>
        cases mode <;> simp [h1, h2, h3]

/-- C3 (counterexample): with `rescale_top = 4/5` and pre-rescale scores
`[3/1000000, 1/1000000, 10]`, the two small scores are distinct before the
rescale but both round to 0 after it, so "score(p) ≥ score(q) before the
rescale iff after it" fails for the pair (second, first). -/
theorem rescale_order_iff_cex :
    ¬ ((((1 : ℚ) / 1000000) ≥ 3 / 1000000) ↔
      ((rescale_step (some (4 / 5)) [3 / 1000000, 1 / 1000000, 10]).getD 1 0 ≥
        (rescale_step (some (4 / 5)) [3 / 1000000, 1 / 1000000, 10]).getD 0 0)) := by
  have hr : rescale_step (some (4 / 5)) [3 / 1000000, 1 / 1000000, 10] = [0, 0, 4 / 5] := by
    norm_num [rescale_step, listMax, foldMax]
    refine ⟨?_, ?_, ?_⟩ <;> norm_num [pyRound6, pyRoundInt]
  rw [hr]
  norm_num [List.getD]

/-- C3 (amended): with a positive `rescale_top` the rescale step preserves the
non-strict score ordering in the forward direction: if `score(q) ≤ score(p)`
before the step, then also after it.  The converse direction of the original
claim fails, because the final rounding to six decimal places can merge
distinct scores. -/
theorem rescale_step_preserves_order (c : ℚ) (hc : 0 < c) (scores : List ℚ)
    (i j : ℕ) (hi : i < scores.length) (hj : j < scores.length)
    (h : scores.getD j 0 ≤ scores.getD i 0) :
    (rescale_step (some c) scores).getD j 0 ≤ (rescale_step (some c) scores).getD i 0 := by
  cases scores with
  | nil => simp at hi
  | cons v vs =>
    simp only [rescale_step]
    rw [if_neg (ne_of_gt hc)]
    by_cases hms : (0 : ℚ) < (if listMax v vs = 0 then 1 else listMax v vs)
    · rw [if_pos hms, getD_map_of_lt _ _ i hi, getD_map_of_lt _ _ j hj]
      apply pyRound6_mono
      have hcm : (0 : ℚ) ≤ c / (if listMax v vs = 0 then 1 else listMax v vs) :=
        div_nonneg (le_of_lt hc) (le_of_lt hms)
      calc (v :: vs).getD j 0 / (if listMax v vs = 0 then 1 else listMax v vs) * c
          = (v :: vs).getD j 0 * (c / (if listMax v vs = 0 then 1 else listMax v vs)) := by
            ring
      _ ≤ (v :: vs).getD i 0 * (c / (if listMax v vs = 0 then 1 else listMax v vs)) :=
            mul_le_mul_of_nonneg_right h hcm
      _ = (v :: vs).getD i 0 / (if listMax v vs = 0 then 1 else listMax v vs) * c := by
            ring
    · rw [if_neg hms]
      exact h

/-- C3 (witness): the forward ordering preservation at a concrete input. -/
theorem rescale_step_preserves_order_witness :
    (rescale_step (some 1) [1, 2]).getD 0 0 ≤ (rescale_step (some 1) [1, 2]).getD 1 0 :=
  rescale_step_preserves_order 1 one_pos [1, 2] 1 0 (by norm_num) (by norm_num)
    (by norm_num [List.getD])

/-- C7 (counterexample): excluding "a" from the metrics run over the one-edge
graph a—b still stores `bridgeCoeff = 1 ≠ 0` for "a": the bridging pass
matches all persons without the exclusion filter, so the excluded person's
row is not zeroed. -/
theorem run_metrics_exclusion_not_zeroed_cex :
    (run_metrics_generic cexGraph ["a"] (fun _ => 0) (fun _ => 0) cexInit "a").bridgeCoeff =
      some 1 ∧ (1 : ℚ) ≠ 0 := by
  constructor
  · have hdeg : degreeOf cexGraph "a" = 1 := by decide
    have hnd : neighbourDegrees cexGraph "a" = [1] := by decide
    have hco : bridgeCoeffOf 1 [1] = 1 := by norm_num [bridgeCoeffOf]
    have hcond : "a" ∈ cexGraph.verts ∧ neighborsOf cexGraph "a" ≠ [] := by decide
    unfold run_metrics_generic
    dsimp only
    rw [if_pos hcond, hdeg, hnd, hco]
  · norm_num

/-- C7 (amended): for an excluded person, `community` and `betweenness` stay
untouched (the GDS projection drops the person), and when the person has no
layer neighbour nothing at all is written; but an excluded person with at
least one neighbour still receives `bridgeCoeff`, `degree` and
`bridgePotential` — computed by the unfiltered bridging pass over the whole
graph, with `bridgePotential` using the stale (or zero) betweenness. -/
theorem run_metrics_excluded (g : SimGraph) (excludeIds : List String)
    (lres : String → ℤ) (bres : String → ℚ) (init : String → MetricProps)
    (p : String) (hp : p ∈ excludeIds) :
    ((run_metrics_generic g excludeIds lres bres init p).community = (init p).community ∧
     (run_metrics_generic g excludeIds lres bres init p).betweenness = (init p).betweenness) ∧
    (¬ (p ∈ g.verts ∧ neighborsOf g p ≠ []) →
      run_metrics_generic g excludeIds lres bres init p = init p) ∧
    ((p ∈ g.verts ∧ neighborsOf g p ≠ []) →
      (run_metrics_generic g excludeIds lres bres init p).bridgeCoeff =
        some (storedBridgeCoeff g p) ∧
      (run_metrics_generic g excludeIds lres bres init p).similarDegree =
        some ((degreeOf g p : ℚ)) ∧
      (run_metrics_generic g excludeIds lres bres init p).bridgePotential =
        some ((init p).betweenness.getD 0 * storedBridgeCoeff g p)) := by
  have hnotproj : p ∉ g.verts.filter (fun q => ¬ excludeIds.contains q) := by
    intro hmem
    have h2 := (List.mem_filter.mp hmem).2
    simp at h2
    exact h2 hp
  have hrun : run_metrics_generic g excludeIds lres bres init p =
      if p ∈ g.verts ∧ neighborsOf g p ≠ [] then
        { init p with
          bridgeCoeff := some (storedBridgeCoeff g p)
          bridgePotential := some ((init p).betweenness.getD 0 * storedBridgeCoeff g p)
          similarDegree := some ((degreeOf g p : ℚ)) }
      else init p := by
    unfold run_metrics_generic storedBridgeCoeff
    dsimp only
    rw [if_neg hnotproj]
  refine ⟨?_, ?_, ?_⟩
  · rw [hrun]
    split
    · exact ⟨rfl, rfl⟩
    · exact ⟨rfl, rfl⟩
  · intro hnb
    rw [hrun, if_neg hnb]
  · intro hb
    rw [hrun, if_pos hb]
    exact ⟨rfl, rfl, rfl⟩

/-- C7 (witness): the amended behaviour at the concrete excluded person "a"
of the one-edge graph. -/
theorem run_metrics_excluded_witness :
    (((run_metrics_generic cexGraph ["a"] (fun _ => 0) (fun _ => 0) cexInit "a").community =
        (cexInit "a").community ∧
      (run_metrics_generic cexGraph ["a"] (fun _ => 0) (fun _ => 0) cexInit "a").betweenness =
        (cexInit "a").betweenness) ∧
     (¬ ("a" ∈ cexGraph.verts ∧ neighborsOf cexGraph "a" ≠ []) →
        run_metrics_generic cexGraph ["a"] (fun _ => 0) (fun _ => 0) cexInit "a" =
          cexInit "a") ∧
     (("a" ∈ cexGraph.verts ∧ neighborsOf cexGraph "a" ≠ []) →
        (run_metrics_generic cexGraph ["a"] (fun _ => 0) (fun _ => 0) cexInit
            "a").bridgeCoeff = some (storedBridgeCoeff cexGraph "a") ∧
        (run_metrics_generic cexGraph ["a"] (fun _ => 0) (fun _ => 0) cexInit
            "a").similarDegree = some ((degreeOf cexGraph "a" : ℚ)) ∧
        (run_metrics_generic cexGraph ["a"] (fun _ => 0) (fun _ => 0) cexInit
            "a").bridgePotential =
          some ((cexInit "a").betweenness.getD 0 * storedBridgeCoeff cexGraph "a"))) :=
  run_metrics_excluded cexGraph ["a"] (fun _ => 0) (fun _ => 0) cexInit "a" (by decide)

/-- C8 (counterexample): with target "go" and universe {"go", "google"},
"go" is a prefix of "google", so the claim's condition (ii) puts "google"
into the result; but the code's exact-match branch short-circuits on
`t ∈ u_set` and returns only {"go"}. -/
theorem fuzzy_normalize_cex :
    pyStartsWith "google" "go" = true ∧
    ("google" : String) ∉ _fuzzy_normalize_companies ["go"] ["go", "google"] := by
  constructor
  · decide
  · decide

/-- C8 (amended): `_fuzzy_normalize_companies` is a per-target cascade, not a
plain disjunction: a target already in the universe contributes only itself
(suppressing prefix and Levenshtein matches); otherwise, if any prefix match
exists, exactly the prefix matches are contributed (suppressing Levenshtein);
only otherwise does the bounded Levenshtein scan contribute (threshold 2 for
names of length at most 8, else 3, and only when the lengths differ by at
most 3, which the distance bound already forces). -/
theorem fuzzy_normalize_mem_iff (targets univ : List String) (x : String) :
    x ∈ _fuzzy_normalize_companies targets univ ↔
      ∃ t0 ∈ targets,
        (pyStrip (pyLower t0) ≠ "" ∧
          ((pyStrip (pyLower t0) ∈ (univ.map pyLower).toFinset ∧
             x = pyStrip (pyLower t0)) ∨
           (pyStrip (pyLower t0) ∉ (univ.map pyLower).toFinset ∧
             (∃ u ∈ (univ.map pyLower).toFinset,
                pyStartsWith u (pyStrip (pyLower t0)) ∨
                pyStartsWith (pyStrip (pyLower t0)) u) ∧
             x ∈ (univ.map pyLower).toFinset ∧
             (pyStartsWith x (pyStrip (pyLower t0)) ∨
                pyStartsWith (pyStrip (pyLower t0)) x)) ∨
           (pyStrip (pyLower t0) ∉ (univ.map pyLower).toFinset ∧
             (∀ u ∈ (univ.map pyLower).toFinset,
                ¬ (pyStartsWith u (pyStrip (pyLower t0)) ∨
                   pyStartsWith (pyStrip (pyLower t0)) u)) ∧
             x ∈ (univ.map pyLower).toFinset ∧
             max x.length (pyStrip (pyLower t0)).length -
               min x.length (pyStrip (pyLower t0)).length ≤ 3 ∧
             _levenshtein (pyStrip (pyLower t0)) x ≤
               (if max (pyStrip (pyLower t0)).length x.length ≤ 8 then 2 else 3)))) := by
  unfold _fuzzy_normalize_companies
  rw [mem_foldl_union]
  simp only [Finset.not_mem_empty, false_or]
  exact exists_congr fun t0 => and_congr_right fun _ => mem_fuzzyContrib _ _ _

/-- C4: with `prefilter=True`, a person id is a candidate iff it belongs to a
`KNOWS` neighbour of `me` that satisfies the claim's condition: no restriction
when all three goal lists are empty; the conjunction of job-token and company
hits when both of those are non-empty and the skills are empty; otherwise a
disjunction over the non-empty goal dimensions. -/
theorem fetch_candidates_characterization (g : RankGraph) (schemaHasCompany : Bool)
    (me : String) (gs gj gc : List String) (pid : String) :
    pid ∈ _fetch_candidate_connections g schemaHasCompany me gs gj gc ↔
      ∃ p ∈ knowsRows g me, p.id = pid ∧ claimPrefilterCond schemaHasCompany gs gj gc p := by
  unfold _fetch_candidate_connections claimPrefilterCond
  by_cases h0 : gs = [] ∧ gj = [] ∧ gc = []
  · simp only [if_pos h0]
    rw [List.mem_dedup]
    constructor
    · intro hmem
      rcases List.mem_map.mp hmem with ⟨p, hp, rfl⟩
      exact ⟨p, hp, rfl, trivial⟩
    · rintro ⟨p, hp, hid, -⟩
      exact List.mem_map.mpr ⟨p, hp, hid⟩
  · simp only [if_neg h0]
    by_cases h1 : ¬ gj = [] ∧ ¬ gc = [] ∧ gs = []
    · simp only [if_pos h1]
      constructor
      · intro hmem
        rcases List.mem_map.mp hmem with ⟨p, hpf, rfl⟩
        rcases List.mem_filter.mp hpf with ⟨hp, hcond⟩
        rw [Bool.and_eq_true] at hcond
        exact ⟨p, hp, rfl,
          ((condJobB_iff gj p).mp hcond.1).2, ((condCompanyB_iff _ gc p).mp hcond.2).2⟩
      · rintro ⟨p, hp, rfl, hjob, hcomp⟩
        refine List.mem_map.mpr ⟨p, List.mem_filter.mpr ⟨hp, ?_⟩, rfl⟩
        rw [Bool.and_eq_true]
        exact ⟨(condJobB_iff gj p).mpr ⟨h1.1, hjob⟩,
          (condCompanyB_iff _ gc p).mpr ⟨h1.2.1, hcomp⟩⟩
    · simp only [if_neg h1]
      constructor
      · intro hmem
        rcases List.mem_map.mp hmem with ⟨p, hpf, rfl⟩
        rcases List.mem_filter.mp hpf with ⟨hp, hcond⟩
        simp only [Bool.or_eq_true] at hcond
        refine ⟨p, hp, rfl, ?_⟩
        rcases hcond with (hs | hj) | hc
        · exact Or.inl ((condSkillsB_iff gs p).mp hs)
        · exact Or.inr (Or.inl ((condJobB_iff gj p).mp hj))
        · exact Or.inr (Or.inr ((condCompanyB_iff _ gc p).mp hc))
      · rintro ⟨p, hp, rfl, hcond⟩
        refine List.mem_map.mpr ⟨p, List.mem_filter.mpr ⟨hp, ?_⟩, rfl⟩
        simp only [Bool.or_eq_true]
        rcases hcond with hs | hj | hc
        · exact Or.inl (Or.inl ((condSkillsB_iff gs p).mpr hs))
        · exact Or.inl (Or.inr ((condJobB_iff gj p).mpr hj))
        · exact Or.inr ((condCompanyB_iff _ gc p).mpr hc)

end BridgeWise
